import Mathlib

/-!
Verification of the POSHO-9000 ladder scheduler / leaderboard diff / top-log
engine (src/index.ts) against its natural-language specification.

The source is shallowly embedded: each TypeScript function relevant to a claim
is translated into a computable Lean definition, with JS `Map` objects and
plain objects keyed by strings modelled as insertion-ordered association lists
(`mapSet` replaces-in-place-or-appends, matching both `Map.prototype.set` and
JS object property assignment), JS `Infinity` ranks modelled by the two-point
extension `Rank`, and fallible operations returning `Option`.
-/

set_option autoImplicit false

/-- Models the global helper `toID` (src/index.ts lines 789-797) on string
input: lowercase, then strip every character that is not a lowercase ASCII
letter or digit.  (The `text.id` / `text.userid` unwrapping and non-string
branches do not arise in the embedded call sites, which always pass strings;
`Char.toLower` agrees with JS `toLowerCase` on ASCII, the only alphabet that
survives the filter.) -/
def toID (s : String) : String :=
  ⟨(s.data.map Char.toLower).filter fun c => c.isLower || c.isDigit⟩

/-- A rank as used by `getDiffs`/`trackChanges`: either an ordinary 1-based
position or the JS `Infinity` sentinel stored when an id is absent. -/
inductive Rank where
  | fin (n : Nat)
  | infinity
deriving DecidableEq, Repr

/-- JS `oldrank > n` comparison against a finite cutoff, with
`Infinity > n = true`. -/
def Rank.gtN : Rank → Nat → Bool
  | .fin m, n => decide (n < m)
  | .infinity, _ => true

/-- JS `oldrank <= n` comparison against a finite cutoff, with
`Infinity <= n = false`. -/
def Rank.leN : Rank → Nat → Bool
  | .fin m, n => decide (m ≤ n)
  | .infinity, _ => false

/-- One row of the filtered ladder, interface `LeaderboardEntry`
(src/index.ts lines 68-74).  `rank` is optional exactly as in the source. -/
structure LeaderboardEntry where
  name : String
  rank : Option Nat := none
  elo : Int
  win : Int
  lose : Int
deriving DecidableEq, Repr

/-- Insertion-ordered association-list update: replace the value in place if
the key is present, append otherwise.  This is the observable behaviour of
both `Map.prototype.set` and JS object property assignment, the two map
implementations used by the source. -/
def mapSet {α : Type} : List (String × α) → String → α → List (String × α)
  | [], k, v => [(k, v)]
  | (k', v') :: m, k, v =>
    if k' = k then (k, v) :: m else (k', v') :: mapSet m k v

/-- Association-list lookup, the observable behaviour of `Map.prototype.get`
and JS object property read. -/
def mapGet {α : Type} : List (String × α) → String → Option α
  | [], _ => none
  | (k', v') :: m, k => if k' = k then some v' else mapGet m k

/-- Combined model of `list.findIndex(e => toID(e.name) === id)` together with
the subsequent `list[index]` access: returns the index of the first entry
whose normalized name is `id`, paired with that entry.  The accumulator `i`
is the index of the head of the remaining list. -/
def findAt (id : String) : Nat → List LeaderboardEntry → Option (Nat × LeaderboardEntry)
  | _, [] => none
  | i, p :: rest => if toID p.name = id then some (i, p) else findAt id (i + 1) rest

/-- The normalized ids of a sequence of entries, in order. -/
def idsOf (xs : List LeaderboardEntry) : List String :=
  xs.map fun e => toID e.name

/-- The 1-based rank of `id` inside `xs` as the source computes it
(`findIndex + 1`, with `Infinity` when absent). -/
def rankIn (xs : List LeaderboardEntry) (id : String) : Rank :=
  match findAt id 0 xs with
  | none => Rank.infinity
  | some (j, _) => Rank.fin (j + 1)

/-- Models `num ? xs.slice(0, num) : xs` (src/index.ts lines 579 and 594),
including the JS falsiness of `num = 0`, which selects the whole sequence. -/
def windowOf (xs : List LeaderboardEntry) : Option Nat → List LeaderboardEntry
  | none => xs
  | some n => if n = 0 then xs else xs.take n

/-- The value type stored per id by `Client.getDiffs`: the tuple
`[name, elo, oldrank, newrank]` (src/index.ts line 577). -/
abbrev DiffValue := String × Int × Rank × Rank

/-- The `diffs` map of `Client.getDiffs`. -/
abbrev DiffMap := List (String × DiffValue)

/-- Body of the first loop of `Client.getDiffs` (src/index.ts lines 580-592)
for the entry `player` at index `i` of the windowed previous sequence: look
the id up in the FULL current sequence; when absent record
`newrank = Infinity` and `elo = 0`, else take the found position and that
entry's `elo`; store a record when the ranks differ. -/
def diffStep1 (currentL : List LeaderboardEntry) (m : DiffMap) (i : Nat)
    (player : LeaderboardEntry) : DiffMap :=
  match findAt (toID player.name) 0 currentL with
  | none =>
    if Rank.fin (i + 1) ≠ Rank.infinity then
      mapSet m (toID player.name) (player.name, (0 : Int), Rank.fin (i + 1), Rank.infinity)
    else m
  | some (j, q) =>
    if Rank.fin (i + 1) ≠ Rank.fin (j + 1) then
      mapSet m (toID player.name) (player.name, q.elo, Rank.fin (i + 1), Rank.fin (j + 1))
    else m

/-- Body of the second loop of `Client.getDiffs` (src/index.ts lines 595-601)
for the entry `player` at index `i` of the windowed current sequence: the old
rank comes from the FULL previous sequence (`Infinity` when absent); store a
record when the ranks differ. -/
def diffStep2 (lastL : List LeaderboardEntry) (m : DiffMap) (i : Nat)
    (player : LeaderboardEntry) : DiffMap :=
  match findAt (toID player.name) 0 lastL with
  | none =>
    if Rank.infinity ≠ Rank.fin (i + 1) then
      mapSet m (toID player.name) (player.name, player.elo, Rank.infinity, Rank.fin (i + 1))
    else m
  | some (j, _) =>
    if Rank.fin (j + 1) ≠ Rank.fin (i + 1) then
      mapSet m (toID player.name) (player.name, player.elo, Rank.fin (j + 1), Rank.fin (i + 1))
    else m

/-- A `for (const [i, player] of list.entries())` loop over entries with their
indices, threading the `diffs` map. -/
def diffPass (step : DiffMap → Nat → LeaderboardEntry → DiffMap) :
    Nat → List LeaderboardEntry → DiffMap → DiffMap
  | _, [], m => m
  | i, p :: rest, m => diffPass step (i + 1) rest (step m i p)

/-- Models `Client.getDiffs` (src/index.ts lines 576-604): window both
sequences, run the previous-side pass then the current-side pass over one
shared map. -/
def getDiffs (lastL currentL : List LeaderboardEntry) (num : Option Nat) : DiffMap :=
  diffPass (diffStep2 lastL) 0 (windowOf currentL num)
    (diffPass (diffStep1 currentL) 0 (windowOf lastL num) [])

/-- The per-record cutoff test applied by `Client.trackChanges`
(src/index.ts line 615): the significant-change flag `this.changed` is set
exactly when this returns `true`, i.e. when the record did NOT cross the
cutoff boundary. -/
def marksChanged (n : Nat) (oldrank newrank : Rank) : Bool :=
  !((oldrank.gtN n && newrank.leN n) || (oldrank.leN n && newrank.gtN n))

/-- Previous snapshot of the worked diff example: A(rank 1), B(rank 2),
C(rank 3). -/
def examplePrev : List LeaderboardEntry :=
  [⟨"A", some 1, 15, 3, 1⟩, ⟨"B", some 2, 14, 2, 1⟩, ⟨"C", some 3, 13, 1, 1⟩]

/-- Current snapshot of the worked diff example: B(rank 1), A(rank 2),
D(rank 3). -/
def exampleCurr : List LeaderboardEntry :=
  [⟨"B", some 1, 16, 3, 1⟩, ⟨"A", some 2, 15, 3, 2⟩, ⟨"D", some 3, 12, 1, 0⟩]

/-- The diff map the source produces for the worked example. -/
def exampleDiffs : DiffMap :=
  [("a", ("A", 15, Rank.fin 1, Rank.fin 2)),
   ("b", ("B", 16, Rank.fin 2, Rank.fin 1)),
   ("c", ("C", 0, Rank.fin 3, Rank.infinity)),
   ("d", ("D", 12, Rank.infinity, Rank.fin 3))]

example : getDiffs examplePrev exampleCurr none = exampleDiffs := by decide

/-- Previous snapshot for the windowed-lookup counterexample: A(1), X(2). -/
def cexPrev : List LeaderboardEntry :=
  [⟨"A", some 1, 20, 1, 0⟩, ⟨"X", some 2, 18, 1, 1⟩]

/-- Current snapshot for the windowed-lookup counterexample: B(1), C(2),
X(3) — X has fallen just outside the window of size 2. -/
def cexCurr : List LeaderboardEntry :=
  [⟨"B", some 1, 22, 2, 0⟩, ⟨"C", some 2, 21, 2, 1⟩, ⟨"X", some 3, 30, 2, 2⟩]

/-- A win/lose pair, the `currentstat`/`originalstat` objects of the
persisted top log (src/index.ts lines 25-26). -/
structure Stat where
  win : Int
  lose : Int
deriving DecidableEq, Repr

/-- One per-user record of the persisted `topLog` type
(src/index.ts lines 23-30). -/
structure TopLogEntry where
  username : String
  currentstat : Stat
  originalstat : Stat
  continuouswin : Int
  starttime : String
  ticks : Nat
deriving DecidableEq, Repr

/-- The persisted `topLog` type (src/index.ts lines 19-32).  The source's
field named `prefix` is called `pfx` here (that word is reserved in Lean);
`logs` is the JS object used as a map from user id to entry. -/
structure TopLog where
  pfx : String
  currenttop : String
  logs : List (String × TopLogEntry)
deriving DecidableEq, Repr

/-- Models `Client.newTopLog` (src/index.ts lines 688-690). -/
def newTopLog (selfPfx : String) : TopLog :=
  { pfx := selfPfx, currenttop := "", logs := [] }

/-- Models `Client.updateTopLog` (src/index.ts lines 646-672) given the
already-loaded persisted log `tops0`: reset to a fresh log when the stored
prefix differs from the active one; when the incoming top id equals the
stored `currenttop`, bump `ticks` only while the ladder is open, reset the
win streak to 0 when `lose` grew (else add the win delta), then overwrite
`currentstat`; otherwise switch `currenttop` and store a brand-new entry
under the incoming id.  Returns `none` exactly where the source would crash
(`tops.logs[userid]` undefined although `userid === tops.currenttop`);
`datestr` stands for `this.formatDateTime(date)`. -/
def updateTopLog (ladderopen : Bool) (selfPfx : String) (tops0 : TopLog)
    (username : String) (win lose : Int) (datestr : String) : Option TopLog :=
  let tops := if tops0.pfx ≠ selfPfx then newTopLog selfPfx else tops0
  let userid := toID username
  if userid = tops.currenttop then
    match mapGet tops.logs userid with
    | none => none
    | some e0 =>
      let e1 := if ladderopen then { e0 with ticks := e0.ticks + 1 } else e0
      let e2 :=
        if lose > e0.currentstat.lose then { e1 with continuouswin := 0 }
        else { e1 with continuouswin := e1.continuouswin + (win - e0.currentstat.win) }
      let e3 := { e2 with currentstat := ⟨win, lose⟩ }
      some { tops with logs := mapSet tops.logs userid e3 }
  else
    some { tops with
      currenttop := userid
      logs := mapSet tops.logs userid
        ⟨username, ⟨win, lose⟩, ⟨win, lose⟩, 0, datestr, 1⟩ }

/-- Models `Client.getTopLog` (src/index.ts lines 674-682).  `fileContents`
is `some` of the bytes of `tops.json` when `fs.existsSync` is true, `none`
otherwise; `parseJSON` models the platform `JSON.parse` composed with the
implicit cast to `topLog`, returning `none` for contents that are not valid
JSON — in the source that is a thrown exception, which propagates out of
`getTopLog` uncaught and is modelled as an overall `none` result. -/
def getTopLog (parseJSON : String → Option TopLog) (fileContents : Option String)
    (selfPfx : String) : Option TopLog :=
  match fileContents with
  | some contents => parseJSON contents
  | none => some (newTopLog selfPfx)

/-- A stored top log for the entry-overwrite counterexample: "a" currently
holds the top; "b" held it earlier and accumulated 5 ticks. -/
def cexTops : TopLog :=
  { pfx := "p"
    currenttop := "a"
    logs := [("a", ⟨"A", ⟨4, 1⟩, ⟨2, 0⟩, 2, "d0", 6⟩),
             ("b", ⟨"B", ⟨3, 2⟩, ⟨1, 1⟩, 7, "d1", 5⟩)] }

/-- JSON values as produced/consumed by the platform `JSON.stringify` /
`JSON.parse` on the top-log object: only strings, (integer) numbers and
insertion-ordered objects occur.  `Client.saveTopLog` and the decoding half
of `Client.getTopLog` are modelled at this level; the platform guarantees
that the textual encoding of such a value parses back to the same value. -/
inductive Json where
  | str : String → Json
  | num : Int → Json
  | obj : List (String × Json) → Json

/-- Encoding of a `{'win': _, 'lose': _}` object. -/
def statToJson (s : Stat) : Json :=
  .obj [("win", .num s.win), ("lose", .num s.lose)]

/-- Encoding of one per-user log record with the exact field names of the
source's `topLog` type. -/
def entryToJson (e : TopLogEntry) : Json :=
  .obj [("username", .str e.username),
        ("currentstat", statToJson e.currentstat),
        ("originalstat", statToJson e.originalstat),
        ("continuouswin", .num e.continuouswin),
        ("starttime", .str e.starttime),
        ("ticks", .num (Int.ofNat e.ticks))]

/-- Models `Client.saveTopLog` (src/index.ts lines 684-686): the JSON value
written to `tops.json` by `JSON.stringify(tops)`. -/
def saveTopLog (t : TopLog) : Json :=
  .obj [("prefix", .str t.pfx),
        ("currenttop", .str t.currenttop),
        ("logs", .obj (t.logs.map fun kv => (kv.1, entryToJson kv.2)))]

/-- Decoding of a stat object. -/
def jsonToStat : Json → Option Stat
  | .obj [("win", .num w), ("lose", .num l)] => some ⟨w, l⟩
  | _ => none

/-- Decoding of one per-user log record. -/
def jsonToEntry : Json → Option TopLogEntry
  | .obj [("username", .str u), ("currentstat", cs), ("originalstat", os),
          ("continuouswin", .num cw), ("starttime", .str st),
          ("ticks", .num (Int.ofNat tk))] =>
    match jsonToStat cs, jsonToStat os with
    | some c, some o => some ⟨u, c, o, cw, st, tk⟩
    | _, _ => none
  | _ => none

/-- Decoding of the `logs` object, entry by entry. -/
def jsonToLogs : List (String × Json) → Option (List (String × TopLogEntry))
  | [] => some []
  | (k, j) :: rest =>
    match jsonToEntry j, jsonToLogs rest with
    | some e, some es => some ((k, e) :: es)
    | _, _ => none

/-- The decoding half of reloading `tops.json`: `JSON.parse` of a serialized
top log, at the JSON-value level (the source then uses the parsed object
directly as a `topLog`). -/
def loadTopLog : Json → Option TopLog
  | .obj [("prefix", .str p), ("currenttop", .str c), ("logs", .obj kvs)] =>
    match jsonToLogs kvs with
    | some logs => some ⟨p, c, logs⟩
    | none => none
  | _ => none

/-- A JS `Date` as far as the scheduler uses one: an absolute day index plus
a time of day.  `setDate(getDate() + 1)` becomes `day + 1` (JS handles the
month rollover internally; an absolute day count gives the same total order
and millisecond arithmetic). -/
structure DateTime where
  day : Nat
  hour : Nat
  minute : Nat
  second : Nat
  ms : Nat
deriving DecidableEq, Repr

/-- JS `+date`: the milliseconds represented by the date. -/
def DateTime.toMillis (d : DateTime) : Nat :=
  (((d.day * 24 + d.hour) * 60 + d.minute) * 60 + d.second) * 1000 + d.ms

/-- Field ranges every real JS `Date` satisfies. -/
def DateTime.Valid (d : DateTime) : Prop :=
  d.hour < 24 ∧ d.minute < 60 ∧ d.second < 60 ∧ d.ms < 1000

instance (d : DateTime) : Decidable d.Valid := by
  unfold DateTime.Valid
  infer_instance

/-- Digits-to-number accumulation used by the numeric parsers (JS
`parseInt` on an all-digit string). -/
def natOfDigits (cs : List Char) : Nat :=
  cs.foldl (fun a c => a * 10 + (c.toNat - 48)) 0

/-- JS `String.prototype.split(':')` on the character list of a string
(structurally recursive so that it evaluates inside the kernel). -/
def splitCols : List Char → List (List Char)
  | [] => [[]]
  | c :: rest =>
    let r := splitCols rest
    if c = ':' then [] :: r
    else (c :: r.headD []) :: r.tail

/-- Models `config.open.split(':')` plus `parseInt` (src/index.ts lines
206-208): the hours and minutes of a `"HH:MM"` time-of-day string. -/
def parseHM (s : String) : Nat × Nat :=
  match (splitCols s.data).map natOfDigits with
  | h :: m :: _ => (h, m)
  | h :: [] => (h, 0)
  | [] => (0, 0)

/-- Shared body of `Client.getNextOpenTime` / `Client.getNextCloseTime`
(src/index.ts lines 203-227): today at the configured hour and minute with
seconds zeroed (milliseconds are left untouched, since the source only calls
`setSeconds(0)`), rolled to tomorrow when strictly earlier than now. -/
def nextTimeOfDay (now : DateTime) (cfg : String) : DateTime :=
  let hm := parseHM cfg
  let t : DateTime := { now with hour := hm.1, minute := hm.2, second := 0 }
  if t.toMillis < now.toMillis then { t with day := t.day + 1 } else t

/-- Models `Client.getNextOpenTime` (src/index.ts lines 203-214). -/
def getNextOpenTime (now : DateTime) (openCfg : String) : DateTime :=
  nextTimeOfDay now openCfg

/-- Models `Client.getNextCloseTime` (src/index.ts lines 216-227). -/
def getNextCloseTime (now : DateTime) (closeCfg : String) : DateTime :=
  nextTimeOfDay now closeCfg

/-- The bootstrap branch of `Client.setDeadline` (src/index.ts lines
145-152), run only when no open/close loop is active yet: compare the next
open and close targets; when the open boundary is strictly sooner,
`closeLadder` runs (`ladderopen := false`), else `openLadder` runs
(`ladderopen := true`).  Returns the resulting `ladderopen` flag. -/
def bootstrapLadderOpen (now : DateTime) (openCfg closeCfg : String) : Bool :=
  if (getNextOpenTime now openCfg).toMillis < (getNextCloseTime now closeCfg).toMillis
  then false else true

/-- The `Leaderboard` record of the client (src/index.ts lines 61-66):
filtered `current`/`last` snapshots plus the unfiltered id lookup. -/
structure Leaderboard where
  current : Option (List LeaderboardEntry)
  last : Option (List LeaderboardEntry)
  lookup : List (String × LeaderboardEntry)
deriving DecidableEq, Repr

/-- Models `Math.round(parseFloat s)` for the plain decimal literals the
ladder TSV contains (optional sign, integer digits, optional fractional
digits); `none` models the `NaN` produced on non-numeric input.  Exponents
and leading whitespace are not modelled; no claim depends on them.
`Math.round` rounds half toward positive infinity, i.e. `x ↦ ⌊x + 1/2⌋`. -/
def parseFloatRound (s : String) : Option Int :=
  let signAndDigits : Bool × List Char :=
    match s.data with
    | '-' :: r => (true, r)
    | '+' :: r => (false, r)
    | r => (false, r)
  let ip := signAndDigits.2.takeWhile Char.isDigit
  let rest := signAndDigits.2.dropWhile Char.isDigit
  let fp : List Char :=
    match rest with
    | '.' :: r => r.takeWhile Char.isDigit
    | _ => []
  if ip.isEmpty && fp.isEmpty then none
  else
    let den : Int := (10 : Int) ^ fp.length
    let mag : Int := (natOfDigits ip : Int) * den + (natOfDigits fp : Int)
    let num : Int := if signAndDigits.1 then -mag else mag
    some (Int.fdiv (2 * num + den) (2 * den))

/-- Models JS `parseInt` on the win/lose columns: optional sign and leading
decimal digits; `none` models `NaN`. -/
def parseIntJS (s : String) : Option Int :=
  let signAndDigits : Bool × List Char :=
    match s.data with
    | '-' :: r => (true, r)
    | '+' :: r => (false, r)
    | r => (false, r)
  let ds := signAndDigits.2.takeWhile Char.isDigit
  if ds.isEmpty then none
  else some (if signAndDigits.1 then -(natOfDigits ds : Int) else (natOfDigits ds : Int))

/-- One row step of the ladder-file loop of `Client.getLeaderboard`
(src/index.ts lines 510-523): parse the row, insert the entry into the
unfiltered lookup, and append it with its 1-based rank to the filtered
sequence when its normalized id starts with the active prefix filter.  The
`rank` field is computed before insertion; the source assigns it to the
shared entry object right after insertion, which is observably identical.
Unparsable numeric cells (JS `NaN`) are represented as `0`; no claim
depends on them. -/
def leaderboardRow (selfPfx : String)
    (acc : List (String × LeaderboardEntry) × List LeaderboardEntry)
    (data : List String) : List (String × LeaderboardEntry) × List LeaderboardEntry :=
  let nm := data.getD 1 ""
  let userid := toID nm
  let keep := userid.startsWith selfPfx
  let entry : LeaderboardEntry :=
    { name := nm
      rank := if keep then some (acc.2.length + 1) else none
      elo := (parseFloatRound (data.getD 0 "")).getD 0
      win := (parseIntJS (data.getD 2 "")).getD 0
      lose := (parseIntJS (data.getD 3 "")).getD 0 }
  (mapSet acc.1 userid entry, if keep then acc.2 ++ [entry] else acc.2)

/-- Models `Client.getLeaderboard` (src/index.ts lines 504-536).  `raw` is
the result of `fs.readFileSync` on the ladder TSV: `none` models a thrown
read error, in which case none of the body's mutations are reached and the
initial empty `leaderboard` array is returned (the `catch` only logs and
optionally reports).  On success the unfiltered lookup is rebuilt from
scratch and, when `display` is set, `last` is overwritten with the fresh
filtered list (the `display` branch also resets the client's chat counters,
which live outside the `Leaderboard` record and are not modelled).  Returns
the updated leaderboard state paired with the filtered ranked list. -/
def getLeaderboard (raw : Option String) (selfPfx : String) (display : Bool)
    (st : Leaderboard) : Leaderboard × List LeaderboardEntry :=
  match raw with
  | none => (st, [])
  | some content =>
    let rows := ((content.splitOn ("\n")).map fun row => row.splitOn ("\t")).filter
      fun r => decide (4 ≤ r.length)
    let built := rows.foldl (leaderboardRow selfPfx) ([], [])
    ({ st with
        lookup := built.1
        last := if display then some built.2 else st.last },
      built.2)


/-- Restatement of the spec's daily boundary rule, for comparison with
`getNextOpenTime`/`getNextCloseTime`: today's configured time-of-day if it
has not yet passed relative to now, else the same time-of-day tomorrow.
This definition follows the spec's words, not the source. -/
def specNextTime (now : DateTime) (h m : Nat) : DateTime :=
  let today : DateTime := { now with hour := h, minute := m, second := 0 }
  if now.toMillis ≤ today.toMillis then today else { today with day := today.day + 1 }


theorem mapGet_mapSet {α : Type} (m : List (String × α)) (k k' : String) (v : α) :
    mapGet (mapSet m k v) k' = if k = k' then some v else mapGet m k' := by
  induction m with
  | nil => simp [mapSet, mapGet]
  | cons a m ih =>
    obtain ⟨ka, va⟩ := a
    by_cases hak : ka = k
    · subst hak
      by_cases hkk : ka = k'
      · subst hkk; simp [mapSet, mapGet]
      · simp [mapSet, mapGet, hkk]
    · by_cases hk : ka = k'
      · subst hk
        have : ¬ k = ka := fun h => hak h.symm
        simp [mapSet, mapGet, hak, this]
      · simp [mapSet, mapGet, hak, hk, ih]

theorem findAt_eq_none_iff (id : String) (i : Nat) (l : List LeaderboardEntry) :
    findAt id i l = none ↔ id ∉ idsOf l := by
  induction l generalizing i with
  | nil => simp [findAt, idsOf]
  | cons p rest ih =>
    by_cases h : toID p.name = id
    · simp [findAt, h, idsOf]
    · have hstep : findAt id i (p :: rest) = findAt id (i + 1) rest := by
        simp [findAt, h]
      rw [hstep, ih (i + 1)]
      unfold idsOf
      simp only [List.map_cons, List.mem_cons, not_or]
      constructor
      · intro hn
        exact ⟨fun heq => h heq.symm, hn⟩
      · intro hn
        exact hn.2

theorem findAt_bounds (id : String) (l : List LeaderboardEntry) :
    ∀ (i r : Nat) (p : LeaderboardEntry),
      findAt id i l = some (r, p) → i ≤ r ∧ r < i + l.length := by
  induction l with
  | nil => intro i r p h; simp [findAt] at h
  | cons q rest ih =>
    intro i r p h
    by_cases hq : toID q.name = id
    · simp [findAt, hq] at h
      obtain ⟨h1, -⟩ := h
      simp only [List.length_cons]
      omega
    · simp [findAt, hq] at h
      have hb := ih (i + 1) r p h
      simp only [List.length_cons]
      omega

theorem findAt_take_some (id : String) (l : List LeaderboardEntry) :
    ∀ (k i r : Nat) (p : LeaderboardEntry),
      findAt id i (l.take k) = some (r, p) → findAt id i l = some (r, p) := by
  induction l with
  | nil => intro k i r p h; simp [findAt] at h
  | cons q rest ih =>
    intro k i r p h
    cases k with
    | zero => simp [findAt] at h
    | succ k =>
      by_cases hq : toID q.name = id
      · simpa [findAt, hq] using h
      · simp only [List.take_succ_cons, findAt, if_neg hq] at h ⊢
        exact ih k (i + 1) r p h

theorem findAt_some_take (id : String) (l : List LeaderboardEntry) :
    ∀ (k i r : Nat) (p : LeaderboardEntry),
      findAt id i l = some (r, p) → r < i + k → findAt id i (l.take k) = some (r, p) := by
  induction l with
  | nil => intro k i r p h _; simp [findAt] at h
  | cons q rest ih =>
    intro k i r p h hr
    cases k with
    | zero =>
      have hb := findAt_bounds id (q :: rest) i r p h
      omega
    | succ k =>
      by_cases hq : toID q.name = id
      · simpa [findAt, hq] using h
      · simp only [findAt, if_neg hq] at h
        simp only [List.take_succ_cons, findAt, if_neg hq]
        exact ih k (i + 1) r p h (by omega)

theorem findAt_none_take (id : String) (l : List LeaderboardEntry) (k i : Nat)
    (h : findAt id i l = none) : findAt id i (l.take k) = none := by
  rw [findAt_eq_none_iff] at h ⊢
  intro hmem
  apply h
  unfold idsOf at hmem ⊢
  obtain ⟨e, he, heq⟩ := List.mem_map.mp hmem
  exact List.mem_map.mpr ⟨e, (List.take_subset k l) he, heq⟩

theorem diffStep1_get_other (c : List LeaderboardEntry) (m : DiffMap) (i : Nat)
    (p : LeaderboardEntry) (k : String) (h : k ≠ toID p.name) :
    mapGet (diffStep1 c m i p) k = mapGet m k := by
  have h' : ¬ toID p.name = k := fun hh => h hh.symm
  unfold diffStep1
  split <;> split <;> simp [mapGet_mapSet, h']

theorem diffStep2_get_other (lastL : List LeaderboardEntry) (m : DiffMap) (i : Nat)
    (p : LeaderboardEntry) (k : String) (h : k ≠ toID p.name) :
    mapGet (diffStep2 lastL m i p) k = mapGet m k := by
  have h' : ¬ toID p.name = k := fun hh => h hh.symm
  unfold diffStep2
  split <;> split <;> simp [mapGet_mapSet, h']

theorem diffStep1_get_self (c : List LeaderboardEntry) (m : DiffMap) (i : Nat)
    (p : LeaderboardEntry) :
    mapGet (diffStep1 c m i p) (toID p.name) =
      match findAt (toID p.name) 0 c with
      | none => some (p.name, (0 : Int), Rank.fin (i + 1), Rank.infinity)
      | some (j, q) =>
        if Rank.fin (i + 1) ≠ Rank.fin (j + 1) then
          some (p.name, q.elo, Rank.fin (i + 1), Rank.fin (j + 1))
        else mapGet m (toID p.name) := by
  unfold diffStep1
  rcases findAt (toID p.name) 0 c with - | ⟨j, q⟩
  · simp [mapGet_mapSet]
  · by_cases hij : Rank.fin (i + 1) = Rank.fin (j + 1) <;> simp [hij, mapGet_mapSet]

theorem diffStep2_get_self (lastL : List LeaderboardEntry) (m : DiffMap) (i : Nat)
    (p : LeaderboardEntry) :
    mapGet (diffStep2 lastL m i p) (toID p.name) =
      if rankIn lastL (toID p.name) ≠ Rank.fin (i + 1) then
        some (p.name, p.elo, rankIn lastL (toID p.name), Rank.fin (i + 1))
      else mapGet m (toID p.name) := by
  unfold diffStep2 rankIn
  rcases findAt (toID p.name) 0 lastL with - | ⟨j, q⟩
  · simp [mapGet_mapSet]
  · by_cases hij : Rank.fin (j + 1) = Rank.fin (i + 1)
    · simp [hij]
    · simp [hij, mapGet_mapSet, Ne.symm hij]

theorem diffPass1_get (c : List LeaderboardEntry) (l : List LeaderboardEntry) (id : String) :
    ∀ (i : Nat) (m : DiffMap), (idsOf l).Nodup →
      mapGet (diffPass (diffStep1 c) i l m) id =
        match findAt id i l with
        | none => mapGet m id
        | some (r, p) =>
          match findAt id 0 c with
          | none => some (p.name, (0 : Int), Rank.fin (r + 1), Rank.infinity)
          | some (j, q) =>
            if Rank.fin (r + 1) ≠ Rank.fin (j + 1) then
              some (p.name, q.elo, Rank.fin (r + 1), Rank.fin (j + 1))
            else mapGet m id := by
  induction l with
  | nil => intro i m _; simp [diffPass, findAt]
  | cons p rest ih =>
    intro i m hnd
    have hnd' : (idsOf rest).Nodup := by
      simpa [idsOf] using hnd.of_cons
    have hnotin : toID p.name ∉ idsOf rest := by
      have := hnd
      simp [idsOf] at this
      intro hmem
      obtain ⟨e, he, heq⟩ := List.mem_map.mp hmem
      exact this.1 e he heq
    rw [show diffPass (diffStep1 c) i (p :: rest) m
        = diffPass (diffStep1 c) (i + 1) rest (diffStep1 c m i p) from rfl]
    rw [ih (i + 1) (diffStep1 c m i p) hnd']
    by_cases hid : toID p.name = id
    · subst hid
      have hrest : findAt (toID p.name) (i + 1) rest = none :=
        (findAt_eq_none_iff _ _ _).mpr hnotin
      rw [hrest]
      have hhead : findAt (toID p.name) i (p :: rest) = some (i, p) := by
        simp [findAt]
      rw [hhead, diffStep1_get_self]
    · have hhead : findAt id i (p :: rest) = findAt id (i + 1) rest := by
        simp [findAt, hid]
      rw [hhead]
      have hother := diffStep1_get_other c m i p id (fun hh => hid hh.symm)
      rcases hfa : findAt id (i + 1) rest with - | ⟨r, pr⟩
      · simp [hother]
      · rcases findAt id 0 c with - | ⟨j, q⟩
        · simp
        · simp [hother]

theorem diffPass2_get (lastL : List LeaderboardEntry) (l : List LeaderboardEntry) (id : String) :
    ∀ (i : Nat) (m : DiffMap), (idsOf l).Nodup →
      mapGet (diffPass (diffStep2 lastL) i l m) id =
        match findAt id i l with
        | none => mapGet m id
        | some (r, p) =>
          if rankIn lastL id ≠ Rank.fin (r + 1) then
            some (p.name, p.elo, rankIn lastL id, Rank.fin (r + 1))
          else mapGet m id := by
  induction l with
  | nil => intro i m _; simp [diffPass, findAt]
  | cons p rest ih =>
    intro i m hnd
    have hnd' : (idsOf rest).Nodup := by
      simpa [idsOf] using hnd.of_cons
    have hnotin : toID p.name ∉ idsOf rest := by
      have := hnd
      simp [idsOf] at this
      intro hmem
      obtain ⟨e, he, heq⟩ := List.mem_map.mp hmem
      exact this.1 e he heq
    rw [show diffPass (diffStep2 lastL) i (p :: rest) m
        = diffPass (diffStep2 lastL) (i + 1) rest (diffStep2 lastL m i p) from rfl]
    rw [ih (i + 1) (diffStep2 lastL m i p) hnd']
    by_cases hid : toID p.name = id
    · subst hid
      have hrest : findAt (toID p.name) (i + 1) rest = none :=
        (findAt_eq_none_iff _ _ _).mpr hnotin
      rw [hrest]
      have hhead : findAt (toID p.name) i (p :: rest) = some (i, p) := by
        simp [findAt]
      rw [hhead, diffStep2_get_self]
    · have hhead : findAt id i (p :: rest) = findAt id (i + 1) rest := by
        simp [findAt, hid]
      rw [hhead]
      have hother := diffStep2_get_other lastL m i p id (fun hh => hid hh.symm)
      rcases hfa : findAt id (i + 1) rest with - | ⟨r, pr⟩
      · simp [hother]
      · simp [hother]

theorem windowOf_as_take (L C : List LeaderboardEntry) (num : Option Nat) :
    ∃ k, windowOf L num = L.take k ∧ windowOf C num = C.take k := by
  cases num with
  | none =>
    refine ⟨max L.length C.length, ?_, ?_⟩ <;>
      simp [windowOf, List.take_of_length_le, le_max_left, le_max_right]
  | some n =>
    by_cases h : n = 0
    · subst h
      refine ⟨max L.length C.length, ?_, ?_⟩ <;>
        simp [windowOf, List.take_of_length_le, le_max_left, le_max_right]
    · exact ⟨n, by simp [windowOf, h], by simp [windowOf, h]⟩

theorem nodup_idsOf_take (xs : List LeaderboardEntry) (k : Nat) (h : (idsOf xs).Nodup) :
    (idsOf (xs.take k)).Nodup := by
  have hsub : List.Sublist (idsOf (xs.take k)) (idsOf xs) := by
    unfold idsOf
    exact (List.take_sublist k xs).map _
  exact h.sublist hsub

theorem length_take_le (xs : List LeaderboardEntry) (k : Nat) : (xs.take k).length ≤ k := by
  simp [List.length_take]

theorem rankIn_eq_fin (L : List LeaderboardEntry) (id : String) (r : Nat)
    (h : rankIn L id = Rank.fin (r + 1)) : ∃ p, findAt id 0 L = some (r, p) := by
  unfold rankIn at h
  rcases hfl : findAt id 0 L with - | ⟨j, q⟩
  · rw [hfl] at h; cases h
  · rw [hfl] at h
    have : j = r := by
      have := Rank.fin.injEq (j + 1) (r + 1) ▸ h
      omega
    subst this
    exact ⟨q, rfl⟩

theorem getDiffs_take_isSome (L C : List LeaderboardEntry) (k : Nat) (id : String)
    (h1 : (idsOf L).Nodup) (h2 : (idsOf C).Nodup) :
    (mapGet (diffPass (diffStep2 L) 0 (C.take k)
        (diffPass (diffStep1 C) 0 (L.take k) [])) id).isSome = true ↔
      rankIn (L.take k) id ≠ rankIn (C.take k) id := by
  have h1k := nodup_idsOf_take L k h1
  have h2k := nodup_idsOf_take C k h2
  rw [diffPass2_get L (C.take k) id 0 _ h2k]
  have hp1 := diffPass1_get C (L.take k) id 0 [] h1k
  rcases hCk : findAt id 0 (C.take k) with - | ⟨rc, pc⟩
  · dsimp only
    rw [hp1]
    rcases hLk : findAt id 0 (L.take k) with - | ⟨rl, pl⟩
    · simp [mapGet, rankIn, hCk, hLk]
    · have hbL := findAt_bounds id (L.take k) 0 rl pl hLk
      have hlenL := length_take_le L k
      rcases hC : findAt id 0 C with - | ⟨j, q⟩
      · simp [mapGet, rankIn, hCk, hLk]
      · have hjr : j ≠ rl := by
          intro hj
          subst hj
          have : findAt id 0 (C.take k) = some (j, q) :=
            findAt_some_take id C k 0 j q hC (by omega)
          rw [this] at hCk
          cases hCk
        have hne : Rank.fin (rl + 1) ≠ Rank.fin (j + 1) := by
          intro hh
          have := Rank.fin.injEq (rl + 1) (j + 1) ▸ hh
          omega
        simp [mapGet, rankIn, hCk, hLk, hne]
  · have hC : findAt id 0 C = some (rc, pc) := findAt_take_some id C k 0 rc pc hCk
    have hbC := findAt_bounds id (C.take k) 0 rc pc hCk
    have hlenC := length_take_le C k
    dsimp only
    by_cases hR : rankIn L id = Rank.fin (rc + 1)
    · rw [if_neg (by simp [hR])]
      obtain ⟨pl', hL⟩ := rankIn_eq_fin L id rc hR
      have hLk2 : findAt id 0 (L.take k) = some (rc, pl') :=
        findAt_some_take id L k 0 rc pl' hL (by omega)
      rw [hp1, hLk2, hC]
      dsimp only
      rw [if_neg (by simp)]
      simp [mapGet, rankIn, hLk2, hCk]
    · rw [if_pos hR]
      simp only [Option.isSome_some, true_iff]
      rcases hLk : findAt id 0 (L.take k) with - | ⟨rl, pl⟩
      · simp [rankIn, hLk, hCk]
      · have hL : findAt id 0 L = some (rl, pl) := findAt_take_some id L k 0 rl pl hLk
        have hrIn : rankIn L id = Rank.fin (rl + 1) := by simp [rankIn, hL]
        have hrl : rl ≠ rc := by
          intro hh
          exact hR (by rw [hrIn, hh])
        simp only [rankIn, hLk, hCk]
        intro hh
        have := Rank.fin.injEq (rl + 1) (rc + 1) ▸ hh
        omega

theorem findAt_of_get (l : List LeaderboardEntry) :
    ∀ (r : Nat) (p : LeaderboardEntry) (i : Nat), (idsOf l).Nodup →
      l.get? r = some p → findAt (toID p.name) i l = some (i + r, p) := by
  induction l with
  | nil => intro r p i _ h; simp at h
  | cons q rest ih =>
    intro r p i hnd h
    cases r with
    | zero =>
      simp at h
      subst h
      simp [findAt]
    | succ r =>
      simp at h
      have hmem : p ∈ rest := List.getElem?_mem h
      have hnotin : toID q.name ∉ idsOf rest := by
        have := hnd
        simp [idsOf] at this
        intro hcontra
        obtain ⟨e, he, heq⟩ := List.mem_map.mp hcontra
        exact this.1 e he heq
      have hnd' : (idsOf rest).Nodup := by
        simpa [idsOf] using hnd.of_cons
      have hne : toID q.name ≠ toID p.name := by
        intro hh
        exact hnotin (hh ▸ List.mem_map.mpr ⟨p, hmem, rfl⟩)
      have hrec := ih r p (i + 1) hnd' (by rw [List.get?_eq_getElem?]; exact h)
      rw [show findAt (toID p.name) i (q :: rest)
          = findAt (toID p.name) (i + 1) rest by simp [findAt, hne]]
      rw [hrec]
      have harith : i + 1 + r = i + (r + 1) := by omega
      rw [harith]

/-- Claim C1: for every pair of snapshots (keyed, as the snapshot builder
guarantees, by pairwise-distinct normalized ids) and optional window size,
`getDiffs` holds a record for an id exactly when that id's rank within the
windowed previous sequence differs from its rank within the windowed current
sequence; in particular, for previous top-3 [A(1),B(2),C(3)] and current
top-3 [B(1),A(2),D(3)] the result is exactly the records A:(1→2), B:(2→1),
C:(3→∞), D:(∞→3). -/
theorem getDiffs_record_iff_rank_change (lastL currentL : List LeaderboardEntry)
    (num : Option Nat) (id : String)
    (h1 : (idsOf lastL).Nodup) (h2 : (idsOf currentL).Nodup) :
    ((mapGet (getDiffs lastL currentL num) id).isSome = true ↔
      rankIn (windowOf lastL num) id ≠ rankIn (windowOf currentL num) id)
    ∧ getDiffs examplePrev exampleCurr none = exampleDiffs := by
  constructor
  · obtain ⟨k, hL, hC⟩ := windowOf_as_take lastL currentL num
    unfold getDiffs
    rw [hL, hC]
    exact getDiffs_take_isSome lastL currentL k id h1 h2
  · decide

/-- Witness for C1 at the worked example, id "a". -/
theorem getDiffs_record_iff_rank_change_witness :
    (((mapGet (getDiffs examplePrev exampleCurr none) ("a")).isSome = true ↔
      rankIn (windowOf examplePrev none) ("a") ≠ rankIn (windowOf exampleCurr none) ("a"))
    ∧ getDiffs examplePrev exampleCurr none = exampleDiffs) :=
  getDiffs_record_iff_rank_change examplePrev exampleCurr none ("a")
    (by decide) (by decide)

/-- Claim C2 counterexample: with window size 2, entry X sits in the
restricted previous sequence (old rank 2) and is absent from the restricted
current sequence, yet its emitted record carries its out-of-window current
rank 3 and its real current elo 30 — not the `newRank = +∞`, `elo = 0` the
claim requires for an id absent from the restricted current sequence. -/
theorem getDiffs_restricted_lookup_counterexample :
    findAt ("x") 0 (windowOf cexCurr (some 2)) = none
    ∧ mapGet (getDiffs cexPrev cexCurr (some 2)) ("x") =
        some ("X", 30, Rank.fin 2, Rank.fin 3)
    ∧ mapGet (getDiffs cexPrev cexCurr (some 2)) ("x") ≠
        some ("X", 0, Rank.fin 2, Rank.infinity) := by
  refine ⟨by decide, by decide, by decide⟩

/-- Claim C2 (amended): `getDiffs` restricts only the ITERATED sequences to
the window; each id is looked up in the FULL other sequence.  For every
entry of the restricted previous sequence: if its id occurs nowhere in the
full current sequence the record is `(name, 0, oldRank, ∞)`; if it occurs
at 0-based position `j` of the full current sequence (even beyond the
window) and the ranks differ, the record carries the actual out-of-window
rank `j+1` and that entry's elo rather than the `∞`/`0` sentinels. -/
theorem getDiffs_full_sequence_lookup (lastL currentL : List LeaderboardEntry)
    (num : Option Nat) (r : Nat) (p : LeaderboardEntry)
    (h1 : (idsOf lastL).Nodup) (h2 : (idsOf currentL).Nodup)
    (hget : (windowOf lastL num).get? r = some p) :
    (findAt (toID p.name) 0 currentL = none →
      mapGet (getDiffs lastL currentL num) (toID p.name) =
        some (p.name, (0 : Int), Rank.fin (r + 1), Rank.infinity))
    ∧ (∀ j q, findAt (toID p.name) 0 currentL = some (j, q) → j ≠ r →
      ∃ nm, mapGet (getDiffs lastL currentL num) (toID p.name) =
        some (nm, q.elo, Rank.fin (r + 1), Rank.fin (j + 1))) := by
  obtain ⟨k, hLw, hCw⟩ := windowOf_as_take lastL currentL num
  have h1k := nodup_idsOf_take lastL k h1
  have h2k := nodup_idsOf_take currentL k h2
  rw [hLw] at hget
  have hfindW : findAt (toID p.name) 0 (lastL.take k) = some (r, p) := by
    have := findAt_of_get (lastL.take k) r p 0 h1k hget
    simpa using this
  have hbW := findAt_bounds (toID p.name) (lastL.take k) 0 r p hfindW
  have hlenW := length_take_le lastL k
  have hp1 := diffPass1_get currentL (lastL.take k) (toID p.name) 0 [] h1k
  constructor
  · intro hC
    have hCkw : findAt (toID p.name) 0 (currentL.take k) = none :=
      findAt_none_take (toID p.name) currentL k 0 hC
    unfold getDiffs
    rw [hLw, hCw, diffPass2_get lastL (currentL.take k) (toID p.name) 0 _ h2k, hCkw]
    dsimp only
    rw [hp1, hfindW, hC]
  · intro j q hC hjr
    have hne : Rank.fin (r + 1) ≠ Rank.fin (j + 1) := by
      intro hh
      have := Rank.fin.injEq (r + 1) (j + 1) ▸ hh
      omega
    unfold getDiffs
    rw [hLw, hCw, diffPass2_get lastL (currentL.take k) (toID p.name) 0 _ h2k]
    rcases hCkw : findAt (toID p.name) 0 (currentL.take k) with - | ⟨j', q'⟩
    · dsimp only
      rw [hp1, hfindW, hC]
      dsimp only
      rw [if_pos hne]
      exact ⟨p.name, rfl⟩
    · have hCfull : findAt (toID p.name) 0 currentL = some (j', q') :=
        findAt_take_some (toID p.name) currentL k 0 j' q' hCkw
      rw [hC] at hCfull
      simp only [Option.some.injEq, Prod.mk.injEq] at hCfull
      obtain ⟨hj', hq'⟩ := hCfull
      subst hj'
      subst hq'
      have hLfull : findAt (toID p.name) 0 lastL = some (r, p) :=
        findAt_take_some (toID p.name) lastL k 0 r p hfindW
      have hrank : rankIn lastL (toID p.name) = Rank.fin (r + 1) := by
        simp [rankIn, hLfull]
      dsimp only
      rw [if_pos (by rw [hrank]; exact hne), hrank]
      exact ⟨q.name, rfl⟩

/-- Witness for the amended C2 theorem: entry X of the windowed previous
sequence is found at out-of-window position 2 of the full current sequence,
so its record reads (2 → 3) with elo 30. -/
theorem getDiffs_full_sequence_lookup_witness :
    ∃ nm, mapGet (getDiffs cexPrev cexCurr (some 2)) (toID ("X")) =
      some (nm, (30 : Int), Rank.fin 2, Rank.fin 3) :=
  (getDiffs_full_sequence_lookup cexPrev cexCurr (some 2) 1 ⟨"X", some 2, 18, 1, 1⟩
    (by decide) (by decide) (by decide)).2 2 ⟨"X", some 3, 30, 2, 2⟩ (by decide) (by decide)

/-- Claim C3 counterexample: with cutoff 3, the record 5→1 crosses from
above the cutoff to at-or-below it but is NOT flagged (src/index.ts line
615 sets `changed` only for non-crossing records), while the record 1→2
stays on the same side and IS flagged — the opposite of the claim. -/
theorem marksChanged_crossing_counterexample :
    marksChanged 3 (Rank.fin 5) (Rank.fin 1) = false
    ∧ marksChanged 3 (Rank.fin 1) (Rank.fin 2) = true := by
  decide

/-- Claim C3 (amended): the classification applied while tracking changes is
symmetric, but inverted relative to the claim: a record is flagged as
significant change (`this.changed` set) exactly when its old and new rank
lie on the SAME side of the cutoff; a record crossing the cutoff in either
direction is never flagged. -/
theorem marksChanged_same_side_iff (n : Nat) (o m : Rank) :
    (marksChanged n o m = true ↔
      ((o.leN n = true ∧ m.leN n = true) ∨ (o.leN n = false ∧ m.leN n = false)))
    ∧ marksChanged n o m = marksChanged n m o := by
  have hgt : ∀ x : Rank, x.gtN n = !(x.leN n) := by
    intro x
    cases x with
    | fin a =>
      by_cases h : a ≤ n
      · simp [Rank.gtN, Rank.leN, h]
      · simp [Rank.gtN, Rank.leN, h]
        omega
    | infinity => rfl
  have key : ∀ (x y : Rank), marksChanged n x y = true ↔
      ((x.leN n = true ∧ y.leN n = true) ∨ (x.leN n = false ∧ y.leN n = false)) := by
    intro x y
    unfold marksChanged
    rw [hgt x, hgt y]
    cases hxl : x.leN n <;> cases hyl : y.leN n <;> simp
  refine ⟨key o m, ?_⟩
  by_cases h1 : marksChanged n o m = true
  · have h2 : marksChanged n m o = true := by
      rcases (key o m).mp h1 with ⟨ha, hb⟩ | ⟨ha, hb⟩
      · exact (key m o).mpr (Or.inl ⟨hb, ha⟩)
      · exact (key m o).mpr (Or.inr ⟨hb, ha⟩)
    rw [h1, h2]
  · have h2 : ¬ marksChanged n m o = true := by
      intro hh
      apply h1
      rcases (key m o).mp hh with ⟨ha, hb⟩ | ⟨ha, hb⟩
      · exact (key o m).mpr (Or.inl ⟨hb, ha⟩)
      · exact (key o m).mpr (Or.inr ⟨hb, ha⟩)
    rw [Bool.not_eq_true] at h1 h2
    rw [h1, h2]

theorem updateTopLog_eq_case (ladderopen : Bool) (selfPfx : String) (tops : TopLog)
    (u : String) (win lose : Int) (d : String) (e0 : TopLogEntry)
    (hpfx : tops.pfx = selfPfx) (htop : toID u = tops.currenttop)
    (hget : mapGet tops.logs (toID u) = some e0) :
    updateTopLog ladderopen selfPfx tops u win lose d =
      some { tops with
              logs := (mapSet tops.logs (toID u)
                ⟨e0.username, ⟨win, lose⟩, e0.originalstat,
                 (if lose > e0.currentstat.lose then 0
                  else e0.continuouswin + (win - e0.currentstat.win)),
                 e0.starttime,
                 (if ladderopen then e0.ticks + 1 else e0.ticks)⟩) } := by
  rw [htop] at hget
  simp only [updateTopLog, hpfx, htop]
  by_cases ho : ladderopen <;> by_cases hl : lose > e0.currentstat.lose <;>
    simp [ho, hl, hget, hpfx]

theorem updateTopLog_ne_case (ladderopen : Bool) (selfPfx : String) (tops : TopLog)
    (u : String) (win lose : Int) (d : String)
    (hpfx : tops.pfx = selfPfx) (htop : toID u ≠ tops.currenttop) :
    updateTopLog ladderopen selfPfx tops u win lose d =
      some { tops with
              currenttop := toID u,
              logs := (mapSet tops.logs (toID u)
                ⟨u, ⟨win, lose⟩, ⟨win, lose⟩, 0, d, 1⟩) } := by
  simp only [updateTopLog, hpfx]
  simp [htop, hpfx]

/-- Claim C4: when the incoming top id equals the stored `currenttop` (and
its entry exists, the invariant the source relies on), `ticks` increases by
exactly 1 if the ladder is open and is unchanged if it is closed; when the
incoming top id differs, the entry stored under the new id starts (or
restarts) with `ticks = 1`. -/
theorem updateTopLog_ticks_spec (ladderopen : Bool) (selfPfx : String) (tops : TopLog)
    (u : String) (win lose : Int) (d : String) (hpfx : tops.pfx = selfPfx) :
    (∀ e0, toID u = tops.currenttop → mapGet tops.logs (toID u) = some e0 →
      ∃ tops', updateTopLog ladderopen selfPfx tops u win lose d = some tops'
        ∧ ∃ e1, mapGet tops'.logs (toID u) = some e1
          ∧ e1.ticks = (if ladderopen then e0.ticks + 1 else e0.ticks))
    ∧ (toID u ≠ tops.currenttop →
      ∃ tops', updateTopLog ladderopen selfPfx tops u win lose d = some tops'
        ∧ ∃ e1, mapGet tops'.logs (toID u) = some e1 ∧ e1.ticks = 1) := by
  constructor
  · intro e0 htop hget
    refine ⟨_, updateTopLog_eq_case ladderopen selfPfx tops u win lose d e0 hpfx htop hget,
      ⟨e0.username, ⟨win, lose⟩, e0.originalstat,
       (if lose > e0.currentstat.lose then 0
        else e0.continuouswin + (win - e0.currentstat.win)),
       e0.starttime,
       (if ladderopen then e0.ticks + 1 else e0.ticks)⟩, ?_, rfl⟩
    simp [mapGet_mapSet]
  · intro htop
    refine ⟨_, updateTopLog_ne_case ladderopen selfPfx tops u win lose d hpfx htop,
      ⟨u, ⟨win, lose⟩, ⟨win, lose⟩, 0, d, 1⟩, ?_, rfl⟩
    simp [mapGet_mapSet]

/-- Witness for C4: in `cexTops`, "a" retains the top with the ladder open,
so its ticks go from 6 to 7. -/
theorem updateTopLog_ticks_spec_witness :
    ∃ tops', updateTopLog true ("p") cexTops ("A") 5 1 ("d2") = some tops'
      ∧ ∃ e1, mapGet tops'.logs (toID ("A")) = some e1
        ∧ e1.ticks = (if true then 6 + 1 else 6) :=
  (updateTopLog_ticks_spec true ("p") cexTops ("A") 5 1 ("d2") (by decide)).1
    ⟨"A", ⟨4, 1⟩, ⟨2, 0⟩, 2, "d0", 6⟩ (by decide) (by decide)

/-- Claim C7: while the incoming top id equals the stored `currenttop` (and
its entry exists), the continuous-win streak resets to 0 exactly when the
incoming `lose` is strictly greater than the stored `currentstat.lose`,
otherwise it grows by the difference between the incoming `win` and the
stored `currentstat.win`; in both cases `currentstat` is then overwritten
with the incoming pair. -/
theorem updateTopLog_streak_spec (ladderopen : Bool) (selfPfx : String) (tops : TopLog)
    (u : String) (win lose : Int) (d : String) (e0 : TopLogEntry)
    (hpfx : tops.pfx = selfPfx) (htop : toID u = tops.currenttop)
    (hget : mapGet tops.logs (toID u) = some e0) :
    ∃ tops', updateTopLog ladderopen selfPfx tops u win lose d = some tops'
      ∧ ∃ e1, mapGet tops'.logs (toID u) = some e1
        ∧ e1.continuouswin = (if lose > e0.currentstat.lose then 0
            else e0.continuouswin + (win - e0.currentstat.win))
        ∧ e1.currentstat = ⟨win, lose⟩ := by
  refine ⟨_, updateTopLog_eq_case ladderopen selfPfx tops u win lose d e0 hpfx htop hget,
    ⟨e0.username, ⟨win, lose⟩, e0.originalstat,
     (if lose > e0.currentstat.lose then 0
      else e0.continuouswin + (win - e0.currentstat.win)),
     e0.starttime,
     (if ladderopen then e0.ticks + 1 else e0.ticks)⟩, ?_, rfl, rfl⟩
  simp [mapGet_mapSet]

/-- Witness for C7: "a" retains the top with an increased lose count, so the
streak resets to 0 and `currentstat` becomes (5, 3). -/
theorem updateTopLog_streak_spec_witness :
    ∃ tops', updateTopLog true ("p") cexTops ("A") 5 3 ("d2") = some tops'
      ∧ ∃ e1, mapGet tops'.logs (toID ("A")) = some e1
        ∧ e1.continuouswin = (if (3 : Int) > 1 then 0 else 2 + (5 - 4))
        ∧ e1.currentstat = ⟨5, 3⟩ :=
  updateTopLog_streak_spec true ("p") cexTops ("A") 5 3 ("d2")
    ⟨"A", ⟨4, 1⟩, ⟨2, 0⟩, 2, "d0", 6⟩ (by decide) (by decide) (by decide)

/-- Claim C6 counterexample: "b" already has a historical entry (5 ticks,
streak 7), yet when "B" retakes the top the source unconditionally
overwrites that entry with a fresh one (ticks 1, stats reset) instead of
preserving it as the claim requires. -/
theorem updateTopLog_overwrite_counterexample :
    mapGet cexTops.logs ("b") = some ⟨"B", ⟨3, 2⟩, ⟨1, 1⟩, 7, "d1", 5⟩
    ∧ updateTopLog true ("p") cexTops ("B") 9 2 ("d2") =
        some ⟨"p", "b", [("a", ⟨"A", ⟨4, 1⟩, ⟨2, 0⟩, 2, "d0", 6⟩),
                         ("b", ⟨"B", ⟨9, 2⟩, ⟨9, 2⟩, 0, "d2", 1⟩)]⟩
    ∧ (⟨"B", ⟨9, 2⟩, ⟨9, 2⟩, 0, "d2", 1⟩ : TopLogEntry)
        ≠ ⟨"B", ⟨3, 2⟩, ⟨1, 1⟩, 7, "d1", 5⟩ := by
  refine ⟨by decide, by decide, by decide⟩

/-- Claim C6 (amended): when the incoming top id differs from the stored
`currenttop`, the log switches `currenttop` to the new id and
UNCONDITIONALLY stores a fresh entry (currentstat = originalstat = the
incoming pair, streak 0, ticks 1) under that id — replacing any existing
entry of a returning id — while the entries under all OTHER ids and the
prefix are preserved unchanged. -/
theorem updateTopLog_switch_spec (ladderopen : Bool) (selfPfx : String) (tops : TopLog)
    (u : String) (win lose : Int) (d : String)
    (hpfx : tops.pfx = selfPfx) (htop : toID u ≠ tops.currenttop) :
    ∃ tops', updateTopLog ladderopen selfPfx tops u win lose d = some tops'
      ∧ tops'.currenttop = toID u
      ∧ mapGet tops'.logs (toID u) = some ⟨u, ⟨win, lose⟩, ⟨win, lose⟩, 0, d, 1⟩
      ∧ (∀ k2, k2 ≠ toID u → mapGet tops'.logs k2 = mapGet tops.logs k2)
      ∧ tops'.pfx = tops.pfx := by
  refine ⟨_, updateTopLog_ne_case ladderopen selfPfx tops u win lose d hpfx htop,
    rfl, ?_, ?_, rfl⟩
  · simp [mapGet_mapSet]
  · intro k2 hk2
    show mapGet (mapSet tops.logs (toID u) ⟨u, ⟨win, lose⟩, ⟨win, lose⟩, 0, d, 1⟩) k2
      = mapGet tops.logs k2
    rw [mapGet_mapSet]
    rw [if_neg (fun hh => hk2 hh.symm)]

/-- Witness for the amended C6 theorem at the overwrite scenario. -/
theorem updateTopLog_switch_spec_witness :
    ∃ tops', updateTopLog true ("p") cexTops ("B") 9 2 ("d2") = some tops'
      ∧ tops'.currenttop = toID ("B")
      ∧ mapGet tops'.logs (toID ("B")) = some ⟨"B", ⟨9, 2⟩, ⟨9, 2⟩, 0, "d2", 1⟩
      ∧ (∀ k2, k2 ≠ toID ("B") → mapGet tops'.logs k2 = mapGet cexTops.logs k2)
      ∧ tops'.pfx = cexTops.pfx :=
  updateTopLog_switch_spec true ("p") cexTops ("B") 9 2 ("d2") (by decide) (by decide)

/-- Claim C5 counterexample: an EXISTING but malformed `tops.json` is not
silently reinitialized — `JSON.parse` throws (modelled: the parse function
yields `none`) and `getTopLog` fails instead of producing the default log. -/
theorem getTopLog_corrupt_counterexample :
    getTopLog (fun _ => none) (some ("not json")) ("p") = none
    ∧ (none : Option TopLog) ≠ some (newTopLog ("p")) :=
  ⟨rfl, by simp⟩

/-- Claim C5 (amended): a MISSING top-log file is treated as absent and
silently replaced by the default log (active prefix, empty `currenttop`,
empty entries) without the operation failing; but an existing file whose
contents do not parse makes the load fail (the `JSON.parse` exception
propagates out of `getTopLog`) rather than being reinitialized. -/
theorem getTopLog_missing_default_corrupt_fails
    (parseJSON : String → Option TopLog) (selfPfx : String) :
    getTopLog parseJSON none selfPfx = some (newTopLog selfPfx)
    ∧ ∀ contents, parseJSON contents = none →
        getTopLog parseJSON (some contents) selfPfx = none :=
  ⟨rfl, fun _ h => h⟩

/-- Witness for the amended C5 theorem, with a parse function rejecting
everything (as `JSON.parse` does on non-JSON bytes). -/
theorem getTopLog_missing_default_corrupt_fails_witness :
    getTopLog (fun _ => none) none ("q") = some (newTopLog ("q"))
    ∧ getTopLog (fun _ => none) (some ("zzz")) ("q") = none :=
  ⟨(getTopLog_missing_default_corrupt_fails (fun _ => none) ("q")).1,
   (getTopLog_missing_default_corrupt_fails (fun _ => none) ("q")).2 ("zzz") rfl⟩

theorem jsonToEntry_entryToJson (e : TopLogEntry) :
    jsonToEntry (entryToJson e) = some e := rfl

theorem jsonToLogs_map (logs : List (String × TopLogEntry)) :
    jsonToLogs (logs.map fun kv => (kv.1, entryToJson kv.2)) = some logs := by
  induction logs with
  | nil => rfl
  | cons kv rest ih =>
    obtain ⟨k2, e⟩ := kv
    simp [jsonToLogs, jsonToEntry_entryToJson, ih]

/-- Claim C9: serializing a `TopLog` (the JSON encoding `saveTopLog` writes)
and reloading it (the decoding `getTopLog` performs) reproduces a log with
identical prefix, identical `currenttop` and an identical per-user entries
mapping. -/
theorem topLog_roundtrip (t : TopLog) : loadTopLog (saveTopLog t) = some t := by
  show (match jsonToLogs (t.logs.map fun kv => (kv.1, entryToJson kv.2)) with
    | some logs => some (⟨t.pfx, t.currenttop, logs⟩ : TopLog)
    | none => none) = some t
  rw [jsonToLogs_map]

/-- Claim C10: when the raw ranking table cannot be read, `getLeaderboard`
returns the empty sequence and leaves the stored leaderboard state — the
unfiltered lookup and the retained current/last snapshots — exactly as it
was before the failed call. -/
theorem getLeaderboard_unreadable_state_unchanged
    (selfPfx : String) (display : Bool) (st : Leaderboard) :
    getLeaderboard none selfPfx display st = (st, [])
    ∧ (getLeaderboard none selfPfx display st).1.lookup = st.lookup
    ∧ (getLeaderboard none selfPfx display st).1.current = st.current
    ∧ (getLeaderboard none selfPfx display st).1.last = st.last :=
  ⟨rfl, rfl, rfl, rfl⟩

set_option maxRecDepth 4000

/-- Claim C8: for every valid current time and parseable configured
times-of-day, the next open (resp. close) target equals the spec rule
`specNextTime` (today's configured time-of-day if not yet passed, else the
same time-of-day tomorrow), and that target lies in the half-open day
window `[now, now + 24h)`; and on the worked example (open "06:00", close
"22:00", now 23:00 of day 0) the next close is 22:00 of day 1, the next
open is 06:00 of day 1, the open target is strictly sooner, and the
bootstrap in `setDeadline` resolves the initial state to Closed. -/
theorem nextTime_and_bootstrap_spec :
    (∀ (now : DateTime) (cfg : String) (h m : Nat), now.Valid →
      parseHM cfg = (h, m) → h < 24 → m < 60 →
      getNextOpenTime now cfg = specNextTime now h m
      ∧ getNextCloseTime now cfg = specNextTime now h m
      ∧ now.toMillis ≤ (specNextTime now h m).toMillis
      ∧ (specNextTime now h m).toMillis < now.toMillis + 86400000)
    ∧ getNextCloseTime ⟨0, 23, 0, 0, 0⟩ ("22:00") = ⟨1, 22, 0, 0, 0⟩
    ∧ getNextOpenTime ⟨0, 23, 0, 0, 0⟩ ("06:00") = ⟨1, 6, 0, 0, 0⟩
    ∧ (getNextOpenTime ⟨0, 23, 0, 0, 0⟩ ("06:00")).toMillis
        < (getNextCloseTime ⟨0, 23, 0, 0, 0⟩ ("22:00")).toMillis
    ∧ bootstrapLadderOpen ⟨0, 23, 0, 0, 0⟩ ("06:00") ("22:00") = false := by
  refine ⟨?_, by decide, by decide, by decide, by decide⟩
  intro now cfg h m hv hs hh hm
  have keyEq : nextTimeOfDay now cfg = specNextTime now h m := by
    simp only [nextTimeOfDay, specNextTime, hs]
    by_cases hc : ({ now with hour := h, minute := m, second := 0 } : DateTime).toMillis
        < now.toMillis
    · rw [if_pos hc, if_neg (by omega)]
    · rw [if_neg hc, if_pos (by omega)]
  have keyLe : now.toMillis ≤ (specNextTime now h m).toMillis
      ∧ (specNextTime now h m).toMillis < now.toMillis + 86400000 := by
    obtain ⟨hvh, hvm, hvs, hvms⟩ := hv
    simp only [specNextTime]
    by_cases hc : now.toMillis
        ≤ ({ now with hour := h, minute := m, second := 0 } : DateTime).toMillis
    · rw [if_pos hc]
      refine ⟨hc, ?_⟩
      simp only [DateTime.toMillis] at hc ⊢
      omega
    · rw [if_neg hc]
      simp only [DateTime.toMillis] at hc ⊢
      constructor <;> omega
  exact ⟨keyEq, keyEq, keyLe.1, keyLe.2⟩

/-- Witness for C8 at a concrete valid time 05:04:03.002 of day 3 with
configured time-of-day "06:30". -/
theorem nextTime_and_bootstrap_spec_witness :
    getNextOpenTime ⟨3, 5, 4, 3, 2⟩ ("06:30") = specNextTime ⟨3, 5, 4, 3, 2⟩ 6 30
    ∧ getNextCloseTime ⟨3, 5, 4, 3, 2⟩ ("06:30") = specNextTime ⟨3, 5, 4, 3, 2⟩ 6 30
    ∧ (⟨3, 5, 4, 3, 2⟩ : DateTime).toMillis ≤ (specNextTime ⟨3, 5, 4, 3, 2⟩ 6 30).toMillis
    ∧ (specNextTime ⟨3, 5, 4, 3, 2⟩ 6 30).toMillis
        < (⟨3, 5, 4, 3, 2⟩ : DateTime).toMillis + 86400000 :=
  nextTime_and_bootstrap_spec.1 ⟨3, 5, 4, 3, 2⟩ ("06:30") 6 30 (by decide) (by decide)
    (by decide) (by decide)
